import Mathlib

/-!
Verification of the QMX-Improved integer codec
(`src/compress_integer_qmx_improved.cpp`, `src/jass.cpp`).

The development shallowly embeds the encoder and decoder: machine
integers become `Nat` with explicit `% 2^32` where overflow matters,
the length/selector buffers become `List Nat`, and the 128-bit SSE
registers of the decoder become four 32-bit lanes.
-/

namespace QMX

/-- The set W of legal QMX bit widths. -/
def legalWidths : List Nat := [0, 1, 2, 3, 4, 5, 6, 7, 8, 9, 10, 12, 16, 21, 32]

/-- `bits_needed_for` — how many QMX bits are needed to store an integer of
the given value (direct transliteration of the if-chain in the source). -/
def bits_needed_for (value : Nat) : Nat :=
  if value = 0x01 then 0
  else if value ≤ 0x01 then 1
  else if value ≤ 0x03 then 2
  else if value ≤ 0x07 then 3
  else if value ≤ 0x0F then 4
  else if value ≤ 0x1F then 5
  else if value ≤ 0x3F then 6
  else if value ≤ 0x7F then 7
  else if value ≤ 0xFF then 8
  else if value ≤ 0x1FF then 9
  else if value ≤ 0x3FF then 10
  else if value ≤ 0xFFF then 12
  else if value ≤ 0xFFFF then 16
  else if value ≤ 0x1FFFFF then 21
  else 32

/-! ### Byte-level helpers and the 128-bit register model

The C code moves data through `uint32_t sequence_buffer[4]`, `memcpy`, and
unaligned 128-bit SSE loads/stores.  We model a 128-bit register (and the
4-word sequence buffer) as four 32-bit lanes; multi-byte values are
little-endian on the byte stream. -/

/-- The four little-endian bytes of a 32-bit word. -/
def toLEBytes4 (x : Nat) : List Nat :=
  [x % 256, x / 256 % 256, x / 65536 % 256, x / 16777216 % 256]

/-- Read a little-endian 32-bit word from a byte list (0 past the end). -/
def readU32 (s : List Nat) (i : Nat) : Nat :=
  s.getD i 0 + 256 * s.getD (i + 1) 0 + 65536 * s.getD (i + 2) 0 +
    16777216 * s.getD (i + 3) 0

/-- A 128-bit SSE register (also the encoder's `uint32_t sequence_buffer[4]`),
as four 32-bit lanes. -/
structure M128 where
  lane0 : Nat
  lane1 : Nat
  lane2 : Nat
  lane3 : Nat
  deriving Repr, DecidableEq

/-- `_mm_loadu_si128` from a byte stream at offset `off`. -/
def loadu (s : List Nat) (off : Nat) : M128 :=
  ⟨readU32 s off, readU32 s (off + 4), readU32 s (off + 8), readU32 s (off + 12)⟩

/-- `_mm_storeu_si128` to four 32-bit integers. -/
def M128.store (x : M128) : List Nat := [x.lane0, x.lane1, x.lane2, x.lane3]

/-- The 16 bytes of the register, little-endian lanes in order
(`memcpy(destination, sequence_buffer, 16)`). -/
def M128.storeBytes (x : M128) : List Nat :=
  toLEBytes4 x.lane0 ++ toLEBytes4 x.lane1 ++ toLEBytes4 x.lane2 ++ toLEBytes4 x.lane3

/-- `_mm_and_si128`. -/
def M128.land (x y : M128) : M128 :=
  ⟨x.lane0 &&& y.lane0, x.lane1 &&& y.lane1, x.lane2 &&& y.lane2, x.lane3 &&& y.lane3⟩

/-- `_mm_or_si128`. -/
def M128.lor (x y : M128) : M128 :=
  ⟨x.lane0 ||| y.lane0, x.lane1 ||| y.lane1, x.lane2 ||| y.lane2, x.lane3 ||| y.lane3⟩

/-- `_mm_srli_epi32`: per-32-bit-lane logical shift right. -/
def srli_epi32 (x : M128) (k : Nat) : M128 :=
  ⟨x.lane0 >>> k, x.lane1 >>> k, x.lane2 >>> k, x.lane3 >>> k⟩

/-- `_mm_slli_epi32`: per-32-bit-lane shift left (truncated to 32 bits). -/
def slli_epi32 (x : M128) (k : Nat) : M128 :=
  ⟨x.lane0 <<< k % 2 ^ 32, x.lane1 <<< k % 2 ^ 32,
   x.lane2 <<< k % 2 ^ 32, x.lane3 <<< k % 2 ^ 32⟩

/-- `_mm_srli_epi64`: per-64-bit-half logical shift right. -/
def srli_epi64 (x : M128) (k : Nat) : M128 :=
  let lo := x.lane0 + 4294967296 * x.lane1
  let hi := x.lane2 + 4294967296 * x.lane3
  ⟨lo >>> k % 2 ^ 32, lo >>> k / 2 ^ 32 % 2 ^ 32,
   hi >>> k % 2 ^ 32, hi >>> k / 2 ^ 32 % 2 ^ 32⟩

/-- `_mm_cvtepu8_epi32`: widen the low four bytes to four 32-bit lanes. -/
def cvtepu8_epi32 (x : M128) : M128 :=
  ⟨x.lane0 % 256, x.lane0 / 256 % 256, x.lane0 / 65536 % 256, x.lane0 / 16777216 % 256⟩

/-- `_mm_cvtepu16_epi32`: widen the low four 16-bit halfwords to 32-bit lanes. -/
def cvtepu16_epi32 (x : M128) : M128 :=
  ⟨x.lane0 % 65536, x.lane0 / 65536 % 65536, x.lane1 % 65536, x.lane1 / 65536 % 65536⟩

/-- `_mm_shuffle_ps(x, x, 0x01)` (as used in the byte-widening unpacker):
lanes `[x1, x0, x0, x0]`. -/
def shuffle01 (x : M128) : M128 := ⟨x.lane1, x.lane0, x.lane0, x.lane0⟩

/-- `_mm_movehl_ps(x, x)`: lanes `[x2, x3, x2, x3]`. -/
def movehl (x : M128) : M128 := ⟨x.lane2, x.lane3, x.lane2, x.lane3⟩

/-- A constant mask register (`static_mask_*`: the value replicated in all lanes). -/
def staticMask (m : Nat) : M128 := ⟨m, m, m, m⟩

/-- `memset(sequence_buffer, 0, 16)`. -/
def zeroBuf : M128 := ⟨0, 0, 0, 0⟩

/-- `sequence_buffer[i] |= v` for a lane index `i ∈ {0,1,2,3}`
(the source indexes with `value & 0x03`). -/
def M128.orLane (x : M128) (i : Nat) (v : Nat) : M128 :=
  match i with
  | 0 => { x with lane0 := x.lane0 ||| v }
  | 1 => { x with lane1 := x.lane1 ||| v }
  | 2 => { x with lane2 := x.lane2 ||| v }
  | _ => { x with lane3 := x.lane3 ||| v }

/-- The packing loops `for (value = lo; value < lo + n; value++)
sequence_buffer[value & 0x03] |= contrib(value);`. -/
def packAccum (x : M128) (lo n : Nat) (contrib : Nat → Nat) : M128 :=
  (List.range n).foldl (fun acc k => acc.orLane ((lo + k) % 4) (contrib (lo + k))) x

/-- Concatenation of `n` generated chunks, in index order. -/
def catMap (n : Nat) (f : Nat → List Nat) : List Nat :=
  (List.range n).foldr (fun j acc => f j ++ acc) []

/-! ### The selector table and the encoder -/

/-- `struct type_and_integers`. -/
structure type_and_integers where
  type : Nat
  integers : Nat
  deriving Repr, DecidableEq

/-- `table[]` — selector number and integers per block, indexed by bit width. -/
def table (size_in_bits : Nat) : type_and_integers :=
  match size_in_bits with
  | 0 => ⟨0, 256⟩
  | 1 => ⟨1, 128⟩
  | 2 => ⟨2, 64⟩
  | 3 => ⟨3, 40⟩
  | 4 => ⟨4, 32⟩
  | 5 => ⟨5, 24⟩
  | 6 => ⟨6, 20⟩
  | 7 => ⟨7, 36⟩
  | 8 => ⟨8, 16⟩
  | 9 => ⟨9, 28⟩
  | 10 => ⟨10, 12⟩
  | 12 => ⟨11, 20⟩
  | 16 => ⟨12, 8⟩
  | 21 => ⟨13, 12⟩
  | 32 => ⟨14, 4⟩
  | _ => ⟨0, 0⟩

/-- One block's payload bytes in `write_out`'s inner `switch (size_in_bits)`.
`src k` is `source[k]` relative to the block start (already zero-padded past
the run, as the source guarantees via `full_length_buffer`); `rem` is the
number of source integers of the run still ahead of the block start
(`end - source`), which bounds the byte-wise cases 8/16/32. -/
def writeBlock (src : Nat → Nat) (rem : Nat) (size_in_bits : Nat) : List Nat :=
  match size_in_bits with
  | 0 => []
  | 1 => (packAccum zeroBuf 0 128 (fun v => src v <<< (v / 4 * 1) % 2 ^ 32)).storeBytes
  | 2 => (packAccum zeroBuf 0 64 (fun v => src v <<< (v / 4 * 2) % 2 ^ 32)).storeBytes
  | 3 => (packAccum zeroBuf 0 40 (fun v => src v <<< (v / 4 * 3) % 2 ^ 32)).storeBytes
  | 4 => (packAccum zeroBuf 0 32 (fun v => src v <<< (v / 4 * 4) % 2 ^ 32)).storeBytes
  | 5 => (packAccum zeroBuf 0 24 (fun v => src v <<< (v / 4 * 5) % 2 ^ 32)).storeBytes
  | 6 => (packAccum zeroBuf 0 20 (fun v => src v <<< (v / 4 * 6) % 2 ^ 32)).storeBytes
  | 7 =>
    (packAccum zeroBuf 0 20 (fun v => src v <<< (v / 4 * 7) % 2 ^ 32)).storeBytes ++
      (packAccum (packAccum zeroBuf 16 4 (fun v => src v >>> 4))
        20 16 (fun v => src v <<< ((v - 20) / 4 * 7 + 3) % 2 ^ 32)).storeBytes
  | 8 => catMap (min 16 rem) (fun i => [src i % 256])
  | 9 =>
    (packAccum zeroBuf 0 16 (fun v => src v <<< (v / 4 * 9) % 2 ^ 32)).storeBytes ++
      (packAccum (packAccum zeroBuf 12 4 (fun v => src v >>> 5))
        16 12 (fun v => src v <<< ((v - 16) / 4 * 9 + 4) % 2 ^ 32)).storeBytes
  | 10 => (packAccum zeroBuf 0 12 (fun v => src v <<< (v / 4 * 10) % 2 ^ 32)).storeBytes
  | 12 =>
    (packAccum zeroBuf 0 12 (fun v => src v <<< (v / 4 * 12) % 2 ^ 32)).storeBytes ++
      (packAccum (packAccum zeroBuf 8 4 (fun v => src v >>> 8))
        12 8 (fun v => src v <<< ((v - 12) / 4 * 12 + 8) % 2 ^ 32)).storeBytes
  | 16 => catMap (min 8 rem) (fun i => [src i % 256, src i / 256 % 256])
  | 21 =>
    (packAccum zeroBuf 0 8 (fun v => src v <<< (v / 4 * 21) % 2 ^ 32)).storeBytes ++
      (packAccum (packAccum zeroBuf 4 4 (fun v => src v >>> 11))
        8 4 (fun v => src v <<< ((v - 8) / 4 * 21 + 11) % 2 ^ 32)).storeBytes
  | 32 => catMap (min 4 rem) (fun i => toLEBytes4 (src i))
  | _ => []

/-- The batch loop of `write_out`: `count` blocks remain; each batch of at
most 16 blocks gets one selector byte `(type << 4) | (~(batch − 1) & 0x0F)`
(for `batch ∈ [1,16]` the low nibble is `15 − (batch − 1)`), followed by the
batch's block payloads.  Returns (payload bytes, selector bytes).
Structurally recursive on a fuel that counts loop iterations; since every
batch removes at least one block, `fuel = count` is always sufficient (the
callers maintain `count ≤ fuel`, under which fuel exhaustion coincides with
the loop's own `count = 0` exit). -/
def writeOutBatches (src : List Nat) (raw_count size_in_bits : Nat) :
    Nat → Nat → Nat → List Nat × List Nat
  | _, _, 0 => ([], [])
  | pos, count, fuel + 1 =>
    if count = 0 then ([], [])
    else
      let n := (table size_in_bits).integers
      let batch := if count > 16 then 16 else count
      let key := (table size_in_bits).type * 16 + (15 - (batch - 1))
      let payload := catMap batch
        (fun j => writeBlock (fun k => src.getD (pos + j * n + k) 0)
          (raw_count - (pos + j * n)) size_in_bits)
      let rest := writeOutBatches src raw_count size_in_bits
        (pos + batch * n) (count - batch) fuel
      (payload ++ rest.1, key :: rest.2)

/-- `compress_integer_qmx_improved::write_out`: emit `raw_count` integers of
the given bit width as selector bytes plus block payloads.  `none` models the
fatal paths (width above 32 aborts; a width with no table entry divides by
zero when computing the block count). -/
def write_out (src : List Nat) (raw_count size_in_bits : Nat) :
    Option (List Nat × List Nat) :=
  if 32 < size_in_bits then none
  else if (table size_in_bits).integers = 0 then none
  else
    some (writeOutBatches src raw_count size_in_bits 0
      ((raw_count + (table size_in_bits).integers - 1) / (table size_in_bits).integers)
      ((raw_count + (table size_in_bits).integers - 1) / (table size_in_bits).integers))

/-! ### The block planner inside `encode`

`length_buffer` holds one bit width per source integer plus 512 zero pad
bytes (`WASTAGE`).  Phase 1 equalises each aligned quad to its maximum;
the promotion walk then tiles the buffer into legal blocks, with the three
tail special cases re-evaluated at the top of every loop iteration. -/

/-- `maximum(a, b)` (the source's two-argument template). -/
def maximum (a b : Nat) : Nat := if a > b then a else b

/-- `maximum(a, b, c, d)`. -/
def maximum4 (a b c d : Nat) : Nat := maximum (maximum a b) (maximum c d)

/-- Write `v` into `n` consecutive entries starting at index `i`. -/
def setRange (L : List Nat) (i n v : Nat) : List Nat :=
  (List.range n).foldl (fun acc k => acc.set (i + k) v) L

/-- `*cl = *(cl+1) = *(cl+2) = *(cl+3) = v`. -/
def setQuad (L : List Nat) (i v : Nat) : List Nat := setRange L i 4 v

/-- `largest = 0; for (k...) largest = maximum(largest, L[i+k]);`. -/
def maxRange (L : List Nat) (i n : Nat) : Nat :=
  (List.range n).foldl (fun acc k => maximum acc (L.getD (i + k) 0)) 0

/-- The quad-smoothing loop body, structurally recursive on the number of
remaining iterations (the loop runs for quad starts `i = 0, 4, …` while
`i < N + 4`, i.e. exactly `⌈(N+4)/4⌉` iterations). -/
def smoothLoop (L : List Nat) (i : Nat) : Nat → List Nat
  | 0 => L
  | fuel + 1 =>
    smoothLoop
      (setQuad L i (maximum4 (L.getD i 0) (L.getD (i + 1) 0)
        (L.getD (i + 2) 0) (L.getD (i + 3) 0))) (i + 4) fuel

/-- Phase 1 quad smoothing: `for (cl = L; cl < L + N + 4; cl += 4)` set the
quad to its four-way maximum. -/
def smoothQuads (L : List Nat) (N : Nat) : List Nat :=
  smoothLoop L 0 ((N + 4 + 3) / 4)

/-- The three tail special cases at the top of the promotion-walk loop
(fewer than 4 / 8 / 16 source integers remaining; `largest` is the
corresponding `maxRange`). -/
def tailAdjust (L : List Nat) (i N : Nat) : List Nat :=
  if N - i < 4 then
    if maxRange L i 8 ≤ 8 then setRange L i 8 8
    else if maxRange L i 8 ≤ 16 then setRange L i 8 16
    else if maxRange L i 8 ≤ 32 then setRange L i 8 32
    else L
  else if N - i < 8 then
    if maxRange L i 8 ≤ 8 then setRange L i 8 8
    else if maxRange L i 8 ≤ 16 then setRange L i 16 16
    else L
  else if N - i < 16 then
    if maxRange L i 16 ≤ 8 then setRange L i 16 8
    else L
  else L

/-- Result of one dispatch of `switch (*current_length)`: either the leading
quad was promoted to the next width (cursor unchanged), or the block was
committed (`n` entries overwritten with its width, cursor advances by `n`). -/
inductive Step where
  | promoted (L : List Nat)
  | filled (L : List Nat) (b : Nat)

/-- `for (block = 0; block < n; block += 4) if (L[i+block] > w) …` — does any
stride-4 entry of the block exceed the candidate width? -/
def scanExceeds (L : List Nat) (i w n : Nat) : Bool :=
  (List.range (n / 4)).any (fun k => w < L.getD (i + 4 * k) 0)

/-- The `// promote` targets of each `switch` arm: 0→1, 1→2, …, 21→32 (and
the dead `case 32` arm writes 64, as in the source). -/
def nextWidth (w : Nat) : Nat :=
  match w with
  | 0 => 1 | 1 => 2 | 2 => 3 | 3 => 4 | 4 => 5 | 5 => 6 | 6 => 7 | 7 => 8
  | 8 => 9 | 9 => 10 | 10 => 12 | 12 => 16 | 16 => 21 | 21 => 32 | 32 => 64
  | _ => 0

/-- Does `w` have a `case` arm in the promotion-walk `switch`? -/
def widthOk (w : Nat) : Bool := decide (w ∈ legalWidths)

/-- One dispatch of the promotion-walk `switch` on `L[i]`.  Every width arm
of the source has the same shape with per-arm constants `(w, n(w),
next width)`, so the switch is embedded in that parametric form: scan the
block's stride-4 entries and either promote the leading quad to the next
width, or fill the block's `n(w)` entries with `w` (cursor advances by
`n(w)`).  `none` models the `default: exit(...)` arm. -/
def stepOf (L : List Nat) (i : Nat) : Option Step :=
  if widthOk (L.getD i 0) then
    if scanExceeds L i (L.getD i 0) (table (L.getD i 0)).integers then
      some (.promoted (setQuad L i (nextWidth (L.getD i 0))))
    else
      some (.filled (setRange L i (table (L.getD i 0)).integers (L.getD i 0))
        (table (L.getD i 0)).integers)
  else none

/-- The promotion walk (`while (current_length < length_buffer + N)` …):
tail adjustment, then one `switch` dispatch; promotion retries at the same
cursor, a filled block advances the cursor by its integer count.
Structurally recursive on an iteration budget; `walkMeasure` below shows
`34·N + 34` iterations always suffice, so fuel exhaustion (`none`) is
unreachable from `walk`. -/
def walkF (N : Nat) : Nat → List Nat → Nat → Option (List Nat)
  | 0, _, _ => none
  | fuel + 1, L, i =>
    if i < N then
      match stepOf (tailAdjust L i N) i with
      | none => none
      | some (.promoted L2) => walkF N fuel L2 i
      | some (.filled L2 b) => walkF N fuel L2 (i + b)
    else some L

/-- Strict upper bound on the iterations the walk still needs from cursor
`i`: every promotion raises `L[i]` (bounded by 32), every filled block
advances the cursor by at least 4. -/
def walkMeasure (L : List Nat) (i N : Nat) : Nat :=
  34 * (N - i) + (33 - min 33 (L.getD i 0))

/-- The promotion walk over the whole length buffer. -/
def walk (L : List Nat) (N : Nat) : Option (List Nat) :=
  walkF N (34 * N + 34) L 0

/-! ### The run-length pass of `encode` and the full encoder -/

/-- The run-length coder of `encode`: scan `length_buffer[1..N)` collapsing
maximal runs of equal widths, calling `write_out` per run (the slice handed
to `write_out` is `source[idx − run, idx)`), with a final `write_out` after
the loop.  Structurally recursive on `fuel = source.length − idx`, which is
exactly the loop condition `current < source + source_integers`.  Matches
the source exactly, including the `N = 0` corner where a single pseudo-run
of `raw_count = 1` and the (smoothed) width `L[0]` is emitted. -/
def runsLoop (source L : List Nat) : Nat → Nat → Nat → Nat →
    Option (List Nat × List Nat)
  | 0, idx, bits, run => write_out ((source.drop (idx - run)).take run) run bits
  | fuel + 1, idx, bits, run =>
    let new_needed := L.getD idx 0
    if new_needed = bits then runsLoop source L fuel (idx + 1) bits (run + 1)
    else
      match write_out ((source.drop (idx - run)).take run) run bits with
      | none => none
      | some pk =>
        match runsLoop source L fuel (idx + 1) new_needed 1 with
        | none => none
        | some rest => some (pk.1 ++ rest.1, pk.2 ++ rest.2)

/-- The encoder up to (payload bytes, selector bytes in emission order):
length analysis, quad smoothing, promotion walk, run-length coding. -/
def encodeParts (source : List Nat) : Option (List Nat × List Nat) :=
  match walk (smoothQuads (source.map bits_needed_for ++ List.replicate 512 0)
      source.length) source.length with
  | none => none
  | some L2 => runsLoop source L2 (source.length - 1) 1 (L2.getD 0 0) 1

/-- `compress_integer_qmx_improved::encode`.  The destination-capacity
parameter is accepted and ignored, exactly as in the source (which never
checks it).  Returns the encoded byte stream: block payloads followed by the
selector bytes in reverse emission order. -/
def encode (encoded_buffer_length : Nat) (source : List Nat) : Option (List Nat) :=
  (encodeParts source).map (fun pk => pk.1 ++ pk.2.reverse)

/-- `qmx_encode` (jass.cpp): returns the number of bytes used by `encode`. -/
def qmx_encode (encoded_buffer_length : Nat) (source : List Nat) : Option Nat :=
  (encode encoded_buffer_length source).map List.length

/-! ### The vector unpacker (`decode`)

The 256-case switch of the generated decoder is embedded one block body per
selector type; the fall-through run-length trick becomes `16 − (key & 0x0F)`
repetitions of the body.  `s` is the byte stream; `pin` the payload cursor. -/

/-- Selector type 0: store `static_mask_1` (four 1s) sixty-four times —
256 constant-1 integers, no payload read. -/
def unpack0 : List Nat := catMap 64 (fun _ => (staticMask 1).store)

/-- Selector types 1–6 and 10 share one generated shape: load a 128-bit word,
then repeatedly store `byte_stream & mask` and shift right by `w` with
`_mm_srli_epi64`.  `stores` is the number of 4-integer stores. -/
def unpackShift64 (s : List Nat) (pin w m stores : Nat) : List Nat :=
  ((List.range stores).foldl
    (fun acc _ => (acc.1 ++ (M128.land acc.2 (staticMask m)).store, srli_epi64 acc.2 w))
    ([], loadu s pin)).1

/-- Selector type 7: 36 7-bit integers in two 128-bit words. -/
def unpack7 (s : List Nat) (pin : Nat) : List Nat :=
  let mask_7 := staticMask 0x7F
  let bs0 := loadu s pin
  let bs1 := srli_epi32 bs0 7
  let bs2 := srli_epi32 bs1 7
  let bs3 := srli_epi32 bs2 7
  let bw2 := loadu s (pin + 16)
  let c0 := srli_epi32 bw2 3
  let c1 := srli_epi32 c0 7
  let c2 := srli_epi32 c1 7
  let c3 := srli_epi32 c2 7
  (M128.land bs0 mask_7).store ++ (M128.land bs1 mask_7).store ++
    (M128.land bs2 mask_7).store ++ (M128.land bs3 mask_7).store ++
    (M128.land (M128.lor (slli_epi32 bw2 4) (srli_epi32 bs3 7)) mask_7).store ++
    (M128.land c0 mask_7).store ++ (M128.land c1 mask_7).store ++
    (M128.land c2 mask_7).store ++ (M128.land c3 mask_7).store

/-- Selector type 8: widen 16 bytes to 16 32-bit integers. -/
def unpack8 (s : List Nat) (pin : Nat) : List Nat :=
  let tmp := loadu s pin
  let tmp2 := shuffle01 tmp
  let tmp3 := movehl tmp
  let tmp4 := shuffle01 tmp3
  (cvtepu8_epi32 tmp).store ++ (cvtepu8_epi32 tmp2).store ++
    (cvtepu8_epi32 tmp3).store ++ (cvtepu8_epi32 tmp4).store

/-- Selector type 9: 28 9-bit integers in two 128-bit words. -/
def unpack9 (s : List Nat) (pin : Nat) : List Nat :=
  let mask_9 := staticMask 0x1FF
  let bs0 := loadu s pin
  let bs1 := srli_epi32 bs0 9
  let bs2 := srli_epi32 bs1 9
  let bw2 := loadu s (pin + 16)
  let c0 := srli_epi32 bw2 4
  let c1 := srli_epi32 c0 9
  let c2 := srli_epi32 c1 9
  (M128.land bs0 mask_9).store ++ (M128.land bs1 mask_9).store ++
    (M128.land bs2 mask_9).store ++
    (M128.land (M128.lor (slli_epi32 bw2 5) (srli_epi32 bs2 9)) mask_9).store ++
    (M128.land c0 mask_9).store ++ (M128.land c1 mask_9).store ++
    (M128.land c2 mask_9).store

/-- Selector type 11: 20 12-bit integers in two 128-bit words. -/
def unpack12 (s : List Nat) (pin : Nat) : List Nat :=
  let mask_12 := staticMask 0xFFF
  let bs0 := loadu s pin
  let bs1 := srli_epi32 bs0 12
  let bw2 := loadu s (pin + 16)
  let c0 := srli_epi32 bw2 8
  let c1 := srli_epi32 c0 12
  (M128.land bs0 mask_12).store ++ (M128.land bs1 mask_12).store ++
    (M128.land (M128.lor (slli_epi32 bw2 8) (srli_epi32 bs1 12)) mask_12).store ++
    (M128.land c0 mask_12).store ++ (M128.land c1 mask_12).store

/-- Selector type 12: widen 8 halfwords to 8 32-bit integers. -/
def unpack16 (s : List Nat) (pin : Nat) : List Nat :=
  let tmp := loadu s pin
  (cvtepu16_epi32 tmp).store ++ (cvtepu16_epi32 (movehl tmp)).store

/-- Selector type 13: 12 21-bit integers in two 128-bit words. -/
def unpack21 (s : List Nat) (pin : Nat) : List Nat :=
  let mask_21 := staticMask 0x1FFFFF
  let bs := loadu s pin
  let bw2 := loadu s (pin + 16)
  (M128.land bs mask_21).store ++
    (M128.land (M128.lor (slli_epi32 bw2 11) (srli_epi32 bs 21)) mask_21).store ++
    (M128.land (srli_epi32 bw2 11) mask_21).store

/-- One block body of the decoder, by selector type (high nibble). -/
def unpackBlock (s : List Nat) (pin : Nat) (h : Nat) : List Nat :=
  match h with
  | 0 => unpack0
  | 1 => unpackShift64 s pin 1 0x01 32
  | 2 => unpackShift64 s pin 2 0x03 16
  | 3 => unpackShift64 s pin 3 0x07 10
  | 4 => unpackShift64 s pin 4 0x0F 8
  | 5 => unpackShift64 s pin 5 0x1F 6
  | 6 => unpackShift64 s pin 6 0x3F 5
  | 7 => unpack7 s pin
  | 8 => unpack8 s pin
  | 9 => unpack9 s pin
  | 10 => unpackShift64 s pin 10 0x3FF 3
  | 11 => unpack12 s pin
  | 12 => unpack16 s pin
  | 13 => unpack21 s pin
  | 14 => (loadu s pin).store
  | _ => []

/-- Payload bytes consumed per block body (`in += …`): none for type 0,
32 for the double-word types 7/9/11/13, one byte for the reserved type 15
(`in++` per fall-through label), else 16. -/
def strideOf (h : Nat) : Nat :=
  match h with
  | 0 => 0
  | 7 => 32 | 9 => 32 | 11 => 32 | 13 => 32
  | 15 => 1
  | _ => 16

/-- The outputs of `R` consecutive block bodies of type `h` starting at
payload offset `pin` (the reserved type 15 emits nothing). -/
def unpackRun (s : List Nat) (pin h R : Nat) : List Nat :=
  if h = 15 then []
  else catMap R (fun j => unpackBlock s (pin + j * strideOf h) h)

/-- The decoder's dispatch loop: `while (in <= keys) switch (*keys--)`.
Entering the fall-through chain at selector byte `key` executes
`16 − (key & 0x0F)` block bodies of type `key >> 4` before the `break`.
Structurally recursive on a fuel; every iteration decrements `pkeys`, so
the callers' invariant `pkeys < fuel` makes fuel exhaustion coincide with
the loop's own `in ≤ keys` exit. -/
def decodeLoop (s : List Nat) : Nat → Nat → Int → List Nat → List Nat
  | 0, _, _, out => out
  | fuel + 1, pin, pkeys, out =>
    if (pin : Int) ≤ pkeys then
      let key := s.getD pkeys.toNat 0
      let R := 16 - key % 16
      decodeLoop s fuel (pin + R * strideOf (key / 16)) (pkeys - 1)
        (out ++ unpackRun s pin (key / 16) R)
    else out

/-- `compress_integer_qmx_improved::decode`.  Returns the list of 32-bit
integers written to the destination, in order.  As in the source, the
`destination_integers` argument is never consulted. -/
def decode (destination_integers : Nat) (s : List Nat) : List Nat :=
  decodeLoop s s.length 0 ((s.length : Int) - 1) []

/-- Total number of blocks covered by a list of selector bytes: each
selector's low nibble stores `~(run_length − 1)`, so it covers
`16 − (key & 0x0F)` blocks. -/
def blockCount (keys : List Nat) : Nat := (keys.map (fun k => 16 - k % 16)).sum

/-- A legal block tiling of the planned width buffer `Lf` from cursor `i`:
blocks of `n(w)` entries for widths `w ∈ W`, each filled with `w`, covering
all of `[i, N)` (the final block may overhang `N`), such that every in-range
entry's base width `B j` (the classified width of the j-th source integer)
is at most the width of the block holding it. -/
inductive PlanFrom (B : Nat → Nat) (Lf : List Nat) (N : Nat) : Nat → Prop
  | done (i : Nat) (h : N ≤ i) : PlanFrom B Lf N i
  | block (i w : Nat) (hw : w ∈ legalWidths) (hlt : i < N)
      (hfill : ∀ j, i ≤ j → j < i + (table w).integers → Lf.getD j 0 = w)
      (hfit : ∀ j, i ≤ j → j < i + (table w).integers → j < N → B j ≤ w)
      (next : PlanFrom B Lf N (i + (table w).integers)) : PlanFrom B Lf N i

/-! ## Proof development

All definitions above are the shallow embedding of the source; everything
below proves properties about them. -/

/-- Case eliminator for `bits_needed_for`, following the if-chain branch by
branch (linear, avoiding the exponential blowup of naive if-splitting). -/
lemma bits_needed_for_elim (P : Nat → Nat → Prop) (v : Nat)
    (c0 : v = 1 → P v 0)
    (c1 : v = 0 → P v 1)
    (c2 : 2 ≤ v → v ≤ 0x03 → P v 2)
    (c3 : 0x03 < v → v ≤ 0x07 → P v 3)
    (c4 : 0x07 < v → v ≤ 0x0F → P v 4)
    (c5 : 0x0F < v → v ≤ 0x1F → P v 5)
    (c6 : 0x1F < v → v ≤ 0x3F → P v 6)
    (c7 : 0x3F < v → v ≤ 0x7F → P v 7)
    (c8 : 0x7F < v → v ≤ 0xFF → P v 8)
    (c9 : 0xFF < v → v ≤ 0x1FF → P v 9)
    (c10 : 0x1FF < v → v ≤ 0x3FF → P v 10)
    (c12 : 0x3FF < v → v ≤ 0xFFF → P v 12)
    (c16 : 0xFFF < v → v ≤ 0xFFFF → P v 16)
    (c21 : 0xFFFF < v → v ≤ 0x1FFFFF → P v 21)
    (c32 : 0x1FFFFF < v → P v 32) :
    P v (bits_needed_for v) := by
  unfold bits_needed_for
  by_cases h1 : v = 1
  · rw [if_pos h1]; exact c0 h1
  rw [if_neg h1]
  by_cases h2 : v ≤ 0x01
  · rw [if_pos h2]; exact c1 (by omega)
  rw [if_neg h2]
  by_cases h3 : v ≤ 0x03
  · rw [if_pos h3]; exact c2 (by omega) h3
  rw [if_neg h3]
  by_cases h4 : v ≤ 0x07
  · rw [if_pos h4]; exact c3 (by omega) h4
  rw [if_neg h4]
  by_cases h5 : v ≤ 0x0F
  · rw [if_pos h5]; exact c4 (by omega) h5
  rw [if_neg h5]
  by_cases h6 : v ≤ 0x1F
  · rw [if_pos h6]; exact c5 (by omega) h6
  rw [if_neg h6]
  by_cases h7 : v ≤ 0x3F
  · rw [if_pos h7]; exact c6 (by omega) h7
  rw [if_neg h7]
  by_cases h8 : v ≤ 0x7F
  · rw [if_pos h8]; exact c7 (by omega) h8
  rw [if_neg h8]
  by_cases h9 : v ≤ 0xFF
  · rw [if_pos h9]; exact c8 (by omega) h9
  rw [if_neg h9]
  by_cases h10 : v ≤ 0x1FF
  · rw [if_pos h10]; exact c9 (by omega) h10
  rw [if_neg h10]
  by_cases h11 : v ≤ 0x3FF
  · rw [if_pos h11]; exact c10 (by omega) h11
  rw [if_neg h11]
  by_cases h12 : v ≤ 0xFFF
  · rw [if_pos h12]; exact c12 (by omega) h12
  rw [if_neg h12]
  by_cases h13 : v ≤ 0xFFFF
  · rw [if_pos h13]; exact c16 (by omega) h13
  rw [if_neg h13]
  by_cases h14 : v ≤ 0x1FFFFF
  · rw [if_pos h14]; exact c21 (by omega) h14
  rw [if_neg h14]
  exact c32 (by omega)

lemma bits_needed_for_mem (v : Nat) : bits_needed_for v ∈ legalWidths := by
  refine bits_needed_for_elim (fun _ w => w ∈ legalWidths) v ?_ ?_ ?_ ?_ ?_ ?_ ?_
      ?_ ?_ ?_ ?_ ?_ ?_ ?_ ?_ <;> intros <;> decide

lemma bits_needed_for_fit (v : Nat) (hv : v < 2 ^ 32) :
    v ≤ 2 ^ bits_needed_for v - 1 ∨ (bits_needed_for v = 0 ∧ v = 1) := by
  refine bits_needed_for_elim
      (fun v w => v ≤ 2 ^ w - 1 ∨ (w = 0 ∧ v = 1)) v ?_ ?_ ?_ ?_ ?_ ?_ ?_
      ?_ ?_ ?_ ?_ ?_ ?_ ?_ ?_ <;> intros <;> first
    | (right; omega)
    | (left; norm_num; omega)

lemma bits_needed_for_min_all (v : Nat) (hne : v ≠ 1) (h0 : v ≠ 0) :
    (v ≤ 2 ^ 1 - 1 → bits_needed_for v ≤ 1) ∧
    (v ≤ 2 ^ 2 - 1 → bits_needed_for v ≤ 2) ∧
    (v ≤ 2 ^ 3 - 1 → bits_needed_for v ≤ 3) ∧
    (v ≤ 2 ^ 4 - 1 → bits_needed_for v ≤ 4) ∧
    (v ≤ 2 ^ 5 - 1 → bits_needed_for v ≤ 5) ∧
    (v ≤ 2 ^ 6 - 1 → bits_needed_for v ≤ 6) ∧
    (v ≤ 2 ^ 7 - 1 → bits_needed_for v ≤ 7) ∧
    (v ≤ 2 ^ 8 - 1 → bits_needed_for v ≤ 8) ∧
    (v ≤ 2 ^ 9 - 1 → bits_needed_for v ≤ 9) ∧
    (v ≤ 2 ^ 10 - 1 → bits_needed_for v ≤ 10) ∧
    (v ≤ 2 ^ 12 - 1 → bits_needed_for v ≤ 12) ∧
    (v ≤ 2 ^ 16 - 1 → bits_needed_for v ≤ 16) ∧
    (v ≤ 2 ^ 21 - 1 → bits_needed_for v ≤ 21) ∧
    bits_needed_for v ≤ 32 := by
  refine bits_needed_for_elim
      (fun u r => u ≠ 1 → u ≠ 0 →
        ((u ≤ 2 ^ 1 - 1 → r ≤ 1) ∧ (u ≤ 2 ^ 2 - 1 → r ≤ 2) ∧
         (u ≤ 2 ^ 3 - 1 → r ≤ 3) ∧ (u ≤ 2 ^ 4 - 1 → r ≤ 4) ∧
         (u ≤ 2 ^ 5 - 1 → r ≤ 5) ∧ (u ≤ 2 ^ 6 - 1 → r ≤ 6) ∧
         (u ≤ 2 ^ 7 - 1 → r ≤ 7) ∧ (u ≤ 2 ^ 8 - 1 → r ≤ 8) ∧
         (u ≤ 2 ^ 9 - 1 → r ≤ 9) ∧ (u ≤ 2 ^ 10 - 1 → r ≤ 10) ∧
         (u ≤ 2 ^ 12 - 1 → r ≤ 12) ∧ (u ≤ 2 ^ 16 - 1 → r ≤ 16) ∧
         (u ≤ 2 ^ 21 - 1 → r ≤ 21) ∧ r ≤ 32)) v ?_ ?_ ?_ ?_ ?_ ?_ ?_
      ?_ ?_ ?_ ?_ ?_ ?_ ?_ ?_ hne h0 <;> intros <;> omega

lemma bits_needed_for_min (v w : Nat) (hw : w ∈ legalWidths)
    (hfit : v ≤ 2 ^ w - 1) (hne : v ≠ 1) (h0 : v ≠ 0) :
    bits_needed_for v ≤ w := by
  obtain ⟨m1, m2, m3, m4, m5, m6, m7, m8, m9, m10, m12, m16, m21, m32⟩ :=
    bits_needed_for_min_all v hne h0
  fin_cases hw
  · exact absurd (by omega : v = 0) h0
  · exact m1 hfit
  · exact m2 hfit
  · exact m3 hfit
  · exact m4 hfit
  · exact m5 hfit
  · exact m6 hfit
  · exact m7 hfit
  · exact m8 hfit
  · exact m9 hfit
  · exact m10 hfit
  · exact m12 hfit
  · exact m16 hfit
  · exact m21 hfit
  · exact m32

/-- C2: `bits_needed_for` is total on u32; it always returns an element of W;
for every `v` either `v ≤ 2^w − 1` for the returned `w`, or `w = 0 ∧ v = 1`
(the quirk); `v = 1` returns 0 and `v = 0` returns 1; and — away from the two
quirk values 0 and 1 — the returned width is the smallest element of W that
fits `v`. -/
theorem bits_needed_for_correct (v : Nat) (hv : v < 2 ^ 32) :
    bits_needed_for v ∈ legalWidths ∧
    (v ≤ 2 ^ bits_needed_for v - 1 ∨ (bits_needed_for v = 0 ∧ v = 1)) ∧
    (v = 1 → bits_needed_for v = 0) ∧
    (v = 0 → bits_needed_for v = 1) ∧
    (∀ w ∈ legalWidths, v ≤ 2 ^ w - 1 → v ≠ 1 → v ≠ 0 → bits_needed_for v ≤ w) := by
  refine ⟨bits_needed_for_mem v, bits_needed_for_fit v hv, ?_, ?_, ?_⟩
  · rintro rfl; rfl
  · rintro rfl; rfl
  · exact fun w hw hfit hne h0 => bits_needed_for_min v w hw hfit hne h0

/-! Auxiliary facts needed for the walk's termination. -/

lemma setRange_succ (L : List Nat) (i n v : Nat) :
    setRange L i (n + 1) v = (setRange L i n v).set (i + n) v := by
  simp [setRange, List.range_succ]

lemma length_setRange (L : List Nat) (i n v : Nat) :
    (setRange L i n v).length = L.length := by
  induction n with
  | zero => simp [setRange]
  | succ n ih => rw [setRange_succ]; simp [ih]

lemma getD_oob (l : List Nat) (j : Nat) (h : l.length ≤ j) : l.getD j 0 = 0 := by
  simp [List.getD, List.getElem?_eq_none h]

lemma getD_set_self (l : List Nat) (i v : Nat) (h : i < l.length) :
    (l.set i v).getD i 0 = v := by
  simp [List.getD, List.getElem?_set_self', h]

lemma getD_set_ne (l : List Nat) (i j v : Nat) (h : i ≠ j) :
    (l.set i v).getD j 0 = l.getD j 0 := by
  simp [List.getD, List.getElem?_set_ne h]

lemma getD_setRange_inside (L : List Nat) (i n v j : Nat)
    (h1 : i ≤ j) (h2 : j < i + n) (h3 : j < L.length) :
    (setRange L i n v).getD j 0 = v := by
  induction n with
  | zero => omega
  | succ n ih =>
    rw [setRange_succ]
    by_cases hj : j = i + n
    · subst hj
      exact getD_set_self _ _ _ (by rw [length_setRange]; omega)
    · rw [getD_set_ne _ _ _ _ (by omega)]
      exact ih (by omega)

lemma getD_setRange_outside (L : List Nat) (i n v j : Nat)
    (h : j < i ∨ i + n ≤ j) :
    (setRange L i n v).getD j 0 = L.getD j 0 := by
  induction n with
  | zero => simp [setRange]
  | succ n ih =>
    rw [setRange_succ, getD_set_ne _ _ _ _ (by omega)]
    exact ih (by omega)

lemma getD_pos_lt_length (L : List Nat) (j : Nat) (h : 0 < L.getD j 0) :
    j < L.length := by
  by_contra hle
  rw [getD_oob L j (by omega)] at h
  omega

lemma scanExceeds_exists {L : List Nat} {i w n : Nat}
    (h : scanExceeds L i w n = true) :
    ∃ k, k < n / 4 ∧ w < L.getD (i + 4 * k) 0 := by
  simpa [scanExceeds] using h

lemma scanExceeds_index_lt {L : List Nat} {i w n : Nat}
    (h : scanExceeds L i w n = true) : i < L.length := by
  obtain ⟨k, -, hk⟩ := scanExceeds_exists h
  have := getD_pos_lt_length L (i + 4 * k) (by omega)
  omega

lemma le_maximum_left (a b : Nat) : a ≤ maximum a b := by
  unfold maximum; split <;> omega

lemma le_maximum_right (a b : Nat) : b ≤ maximum a b := by
  unfold maximum; split <;> omega

lemma maxRange_succ (L : List Nat) (i n : Nat) :
    maxRange L i (n + 1) = maximum (maxRange L i n) (L.getD (i + n) 0) := by
  simp [maxRange, List.range_succ]

lemma maxRange_ge (L : List Nat) (i n k : Nat) (h : k < n) :
    L.getD (i + k) 0 ≤ maxRange L i n := by
  induction n with
  | zero => omega
  | succ n ih =>
    rw [maxRange_succ]
    by_cases hk : k = n
    · subst hk; exact le_maximum_right _ _
    · exact le_trans (ih (by omega)) (le_maximum_left _ _)

lemma getD_setRange_ge_self (L : List Nat) (i n v : Nat) (hv : L.getD i 0 ≤ v)
    (hn : 0 < n) :
    L.getD i 0 ≤ (setRange L i n v).getD i 0 := by
  by_cases hi : i < L.length
  · rw [getD_setRange_inside L i n v i (le_refl i) (by omega) hi]; exact hv
  · rw [getD_oob L i (by omega)]
    omega

lemma tailAdjust_getD_ge (L : List Nat) (i N : Nat) :
    L.getD i 0 ≤ (tailAdjust L i N).getD i 0 := by
  have hm8 : L.getD i 0 ≤ maxRange L i 8 := by
    have := maxRange_ge L i 8 0 (by omega); simpa using this
  have hm16 : L.getD i 0 ≤ maxRange L i 16 := by
    have := maxRange_ge L i 16 0 (by omega); simpa using this
  unfold tailAdjust
  by_cases h4 : N - i < 4
  · rw [if_pos h4]
    by_cases c1 : maxRange L i 8 ≤ 8
    · rw [if_pos c1]; exact getD_setRange_ge_self _ _ _ _ (by omega) (by omega)
    rw [if_neg c1]
    by_cases c2 : maxRange L i 8 ≤ 16
    · rw [if_pos c2]; exact getD_setRange_ge_self _ _ _ _ (by omega) (by omega)
    rw [if_neg c2]
    by_cases c3 : maxRange L i 8 ≤ 32
    · rw [if_pos c3]; exact getD_setRange_ge_self _ _ _ _ (by omega) (by omega)
    rw [if_neg c3]
  · rw [if_neg h4]
    by_cases h8 : N - i < 8
    · rw [if_pos h8]
      by_cases c1 : maxRange L i 8 ≤ 8
      · rw [if_pos c1]; exact getD_setRange_ge_self _ _ _ _ (by omega) (by omega)
      rw [if_neg c1]
      by_cases c2 : maxRange L i 8 ≤ 16
      · rw [if_pos c2]; exact getD_setRange_ge_self _ _ _ _ (by omega) (by omega)
      rw [if_neg c2]
    · rw [if_neg h8]
      by_cases h16 : N - i < 16
      · rw [if_pos h16]
        by_cases c1 : maxRange L i 16 ≤ 8
        · rw [if_pos c1]; exact getD_setRange_ge_self _ _ _ _ (by omega) (by omega)
        rw [if_neg c1]
      · rw [if_neg h16]

lemma widthOk_mem {w : Nat} (h : widthOk w = true) : w ∈ legalWidths := by
  simpa [widthOk] using h

lemma legalWidths_cases {w : Nat} (h : w ∈ legalWidths) :
    w = 0 ∨ w = 1 ∨ w = 2 ∨ w = 3 ∨ w = 4 ∨ w = 5 ∨ w = 6 ∨ w = 7 ∨ w = 8 ∨
    w = 9 ∨ w = 10 ∨ w = 12 ∨ w = 16 ∨ w = 21 ∨ w = 32 := by
  simpa [legalWidths] using h

lemma nextWidth_gt_of_ne32 {w : Nat} (hw : w ∈ legalWidths) (h32 : w ≠ 32) :
    w < nextWidth w ∧ nextWidth w ≤ 32 := by
  fin_cases hw <;> simp_all [nextWidth]

lemma stepOf_promoted_bound {L : List Nat} {i : Nat} {L' : List Nat}
    (h : stepOf L i = some (.promoted L')) :
    L.getD i 0 < L'.getD i 0 ∧ L'.getD i 0 ≤ 32 := by
  unfold stepOf at h
  by_cases hok : widthOk (L.getD i 0) = true
  · rw [if_pos hok] at h
    by_cases hscan : scanExceeds L i (L.getD i 0) (table (L.getD i 0)).integers = true
    · rw [if_pos hscan] at h
      simp only [Option.some.injEq, Step.promoted.injEq] at h
      subst h
      have hlen : i < L.length := scanExceeds_index_lt hscan
      rw [setQuad, getD_setRange_inside L i 4 _ i (le_refl i) (by omega) hlen]
      by_cases h32 : L.getD i 0 = 32
      · -- the `case 32` promote arm is unreachable: the only scanned entry is
        -- `L[i]` itself, which is not greater than 32
        exfalso
        obtain ⟨k, hk, hgt⟩ := scanExceeds_exists hscan
        rw [h32] at hk
        simp [table] at hk
        subst hk
        simp at hgt
      · exact nextWidth_gt_of_ne32 (widthOk_mem hok) h32
    · rw [if_neg hscan] at h
      simp at h
  · rw [if_neg hok] at h
    simp at h

lemma stepOf_filled_pos {L : List Nat} {i : Nat} {L' : List Nat} {b : Nat}
    (h : stepOf L i = some (.filled L' b)) : 0 < b := by
  unfold stepOf at h
  by_cases hok : widthOk (L.getD i 0) = true
  · rw [if_pos hok] at h
    by_cases hscan : scanExceeds L i (L.getD i 0) (table (L.getD i 0)).integers = true
    · rw [if_pos hscan] at h; simp at h
    · rw [if_neg hscan] at h
      simp only [Option.some.injEq, Step.filled.injEq] at h
      obtain ⟨-, rfl⟩ := h
      have hmem := legalWidths_cases (widthOk_mem hok)
      rcases hmem with h | h | h | h | h | h | h | h | h | h | h | h | h | h | h <;>
        rw [h] <;> decide
  · rw [if_neg hok] at h
    simp at h

/-- Witness for `bits_needed_for_correct` at `v = 5`. -/
theorem bits_needed_for_correct_witness :
    bits_needed_for 5 ∈ legalWidths ∧
    (5 ≤ 2 ^ bits_needed_for 5 - 1 ∨ (bits_needed_for 5 = 0 ∧ 5 = 1)) ∧
    ((5 : Nat) = 1 → bits_needed_for 5 = 0) ∧
    ((5 : Nat) = 0 → bits_needed_for 5 = 1) ∧
    (∀ w ∈ legalWidths, 5 ≤ 2 ^ w - 1 → (5 : Nat) ≠ 1 → (5 : Nat) ≠ 0 →
      bits_needed_for 5 ≤ w) :=
  bits_needed_for_correct 5 (by norm_num)

set_option maxRecDepth 40000

lemma storeBytes_length (x : M128) : x.storeBytes.length = 16 := by
  simp [M128.storeBytes, toLEBytes4]

/-- C3: the source `encode` never consults `encoded_buffer_length` and never
returns 0 to signal overflow: encoding the single value `2^21` needs 5 bytes,
yet with a declared capacity of 1 byte the encoder still reports 5 bytes
written (the C code writes past the buffer), contradicting `qmx_encode`'s own
documentation ("0 on error (i.e. overflow)"). -/
theorem encode_ignores_buffer_capacity :
    qmx_encode 1 [2097152] = some 5 ∧
    (∀ cap : Nat, qmx_encode cap [2097152] = qmx_encode 1 [2097152]) :=
  ⟨by decide, fun _ => rfl⟩

/-- C5 counterexample: encoding the single value `2^21` emits 5 bytes
(4 payload + 1 selector), not the claimed 17. -/
theorem single_2pow21_bytes_counterexample :
    qmx_encode 1000 [2097152] = some 5 ∧ (5 : Nat) ≠ 17 := by
  constructor
  · decide
  · decide

/-- C5 amended: interleaved widths write whole 16-byte (single-word) or
32-byte (double-word) payload units even for a zero-padded final block, but
the byte-wise widths 8/16/32 truncate the final block at the source end;
in particular one remaining width-32 integer yields 4 payload bytes, so
`encode [2^21]` produces the 5-byte stream `[0,0,32,0,0xEF]`, whose decode
starts with `2^21` (bytes beyond the payload leak into later outputs). -/
theorem block_payload_units :
    (∀ src rem, (writeBlock src rem 1).length = 16) ∧
    (∀ src rem, (writeBlock src rem 7).length = 32) ∧
    (∀ src : Nat → Nat, (writeBlock src 1 32).length = 4) ∧
    encode 1000 [2097152] = some [0, 0, 32, 0, 239] ∧
    (decode 4 [0, 0, 32, 0, 239]).take 1 = [2097152] := by
  refine ⟨?_, ?_, ?_, by decide, by decide⟩
  · intro src rem; simp [writeBlock, storeBytes_length]
  · intro src rem; simp [writeBlock, storeBytes_length]
  · intro src; rfl

/-- C6 counterexample: for 256 zero inputs the stream holds one selector byte
covering two width-1 blocks, so the number of selector bytes (1) differs from
the number of blocks (2). -/
theorem selector_count_counterexample :
    (encodeParts (List.replicate 256 0)).map
      (fun pk => (pk.2.length, blockCount pk.2)) = some (1, 2) := by decide

/-- C6 amended: selector bytes plus payload bytes equal the returned encoded
length; but the number of selector bytes equals the number of ≤16-block
run chunks, not the number of blocks (each selector covers
`16 − low nibble ∈ [1,16]` blocks). -/
theorem encoded_length_accounting (cap : Nat) (S out : List Nat)
    (pk : List Nat × List Nat) (hpk : encodeParts S = some pk)
    (he : encode cap S = some out) :
    out.length = pk.1.length + pk.2.length := by
  unfold encode at he
  rw [hpk] at he
  have h2 : pk.1 ++ pk.2.reverse = out := by simpa using he
  rw [← h2]
  simp

/-- Witness for `encoded_length_accounting` on the 5-byte stream of `[2^21]`. -/
theorem encoded_length_accounting_witness :
    ([0, 0, 32, 0, 239] : List Nat).length =
      ([0, 0, 32, 0] : List Nat).length + ([239] : List Nat).length :=
  encoded_length_accounting 0 [2097152] [0, 0, 32, 0, 239]
    ([0, 0, 32, 0], [239]) (by decide) (by decide)

/-- C7 counterexample: `encode` on the empty input returns 1 (a lone `0x0F`
selector byte), not 0, and decoding that stream is not a no-op. -/
theorem encode_empty_counterexample :
    qmx_encode 100 [] = some 1 ∧ decode 0 [15] ≠ [] := by
  constructor
  · decide
  · decide

/-- C7 amended: `encode([])` emits the single selector byte `0x0F` (returns
1 byte), and `decode` — which never reads `integers_to_decode` — writes 256
constant-1 integers when given that stream. -/
theorem encode_empty_behavior :
    encode 100 [] = some [15] ∧ qmx_encode 100 [] = some 1 ∧
    decode 0 [15] = List.replicate 256 1 := by
  refine ⟨by decide, by decide, by decide⟩

/-- C9 counterexample: a reserved selector does not skip exactly one byte.
On the stream `[10,20,30,40,50,0xEF,0xF0]` the final selector `0xF0` skips
16 payload bytes, overshooting the remaining selector, so decode emits
nothing; had it skipped one byte (continuing at payload offset 1 with the
`0xEF` selector next), decode would emit a block of integers. -/
theorem reserved_selector_counterexample :
    decode 0 [10, 20, 30, 40, 50, 239, 240] = [] ∧
    decodeLoop [10, 20, 30, 40, 50, 239, 240] 6 1 5 [] ≠ [] := by
  constructor
  · decide
  · decide

/-- C9 amended: a selector byte with high nibble 15 makes the decoder advance
the payload cursor by `16 − (key & 0x0F)` bytes — one `in++` per fall-through
label — and write no output integers for that selector. -/
theorem reserved_selector_skips (s : List Nat) (fuel pin : Nat) (pkeys : Int)
    (out : List Nat) (hle : (pin : Int) ≤ pkeys)
    (hk : s.getD pkeys.toNat 0 / 16 = 15) :
    decodeLoop s (fuel + 1) pin pkeys out =
      decodeLoop s fuel (pin + (16 - s.getD pkeys.toNat 0 % 16)) (pkeys - 1) out := by
  have h1 : decodeLoop s (fuel + 1) pin pkeys out =
      if (pin : Int) ≤ pkeys then
        decodeLoop s fuel
          (pin + (16 - s.getD pkeys.toNat 0 % 16) *
            strideOf (s.getD pkeys.toNat 0 / 16))
          (pkeys - 1)
          (out ++ unpackRun s pin (s.getD pkeys.toNat 0 / 16)
            (16 - s.getD pkeys.toNat 0 % 16))
      else out := rfl
  rw [h1, if_pos hle, hk]
  simp [unpackRun, strideOf]

/-- Witness for `reserved_selector_skips` on the one-byte stream `[0xF0]`. -/
theorem reserved_selector_skips_witness :
    decodeLoop [240] (0 + 1) 0 0 [] =
      decodeLoop [240] 0 (0 + (16 - ([240] : List Nat).getD (Int.toNat 0) 0 % 16))
        (0 - 1) [] :=
  reserved_selector_skips [240] 0 0 0 [] (by decide) (by decide)

/-! ### Unfolding equations for the fueled loops -/

lemma writeOutBatches_zero (src : List Nat) (raw w pos count : Nat) :
    writeOutBatches src raw w pos count 0 = ([], []) := rfl

lemma writeOutBatches_succ (src : List Nat) (raw w pos count fuel : Nat) :
    writeOutBatches src raw w pos count (fuel + 1) =
      if count = 0 then ([], [])
      else
        (catMap (if count > 16 then 16 else count)
            (fun j => writeBlock (fun k => src.getD (pos + j * (table w).integers + k) 0)
              (raw - (pos + j * (table w).integers)) w) ++
          (writeOutBatches src raw w
            (pos + (if count > 16 then 16 else count) * (table w).integers)
            (count - (if count > 16 then 16 else count)) fuel).1,
         ((table w).type * 16 + (15 - ((if count > 16 then 16 else count) - 1))) ::
          (writeOutBatches src raw w
            (pos + (if count > 16 then 16 else count) * (table w).integers)
            (count - (if count > 16 then 16 else count)) fuel).2) := rfl

lemma runsLoop_zero (source L : List Nat) (idx bits run : Nat) :
    runsLoop source L 0 idx bits run =
      write_out ((source.drop (idx - run)).take run) run bits := rfl

lemma runsLoop_succ (source L : List Nat) (fuel idx bits run : Nat) :
    runsLoop source L (fuel + 1) idx bits run =
      if L.getD idx 0 = bits then runsLoop source L fuel (idx + 1) bits (run + 1)
      else
        match write_out ((source.drop (idx - run)).take run) run bits with
        | none => none
        | some pk =>
          match runsLoop source L fuel (idx + 1) (L.getD idx 0) 1 with
          | none => none
          | some rest => some (pk.1 ++ rest.1, pk.2 ++ rest.2) := rfl

lemma walkF_zero (N : Nat) (L : List Nat) (i : Nat) : walkF N 0 L i = none := rfl

lemma walkF_succ (N fuel : Nat) (L : List Nat) (i : Nat) :
    walkF N (fuel + 1) L i =
      if i < N then
        match stepOf (tailAdjust L i N) i with
        | none => none
        | some (.promoted L2) => walkF N fuel L2 i
        | some (.filled L2 b) => walkF N fuel L2 (i + b)
      else some L := rfl

lemma decodeLoop_zero (s : List Nat) (pin : Nat) (pkeys : Int) (out : List Nat) :
    decodeLoop s 0 pin pkeys out = out := rfl

lemma decodeLoop_succ (s : List Nat) (fuel pin : Nat) (pkeys : Int) (out : List Nat) :
    decodeLoop s (fuel + 1) pin pkeys out =
      if (pin : Int) ≤ pkeys then
        decodeLoop s fuel
          (pin + (16 - s.getD pkeys.toNat 0 % 16) * strideOf (s.getD pkeys.toNat 0 / 16))
          (pkeys - 1)
          (out ++ unpackRun s pin (s.getD pkeys.toNat 0 / 16)
            (16 - s.getD pkeys.toNat 0 % 16))
      else out := rfl

/-! ### C10: the encoder never emits a reserved selector -/

lemma table_type_le (w : Nat) : (table w).type ≤ 14 := by
  unfold table
  split <;> decide

lemma writeOutBatches_keys (src : List Nat) (raw w : Nat) :
    ∀ fuel pos count, ∀ k ∈ (writeOutBatches src raw w pos count fuel).2,
      k / 16 ≤ 14 := by
  intro fuel
  induction fuel with
  | zero =>
    intro pos count k hk
    rw [writeOutBatches_zero] at hk
    simp at hk
  | succ fuel ih =>
    intro pos count k hk
    rw [writeOutBatches_succ] at hk
    by_cases hc : count = 0
    · rw [if_pos hc] at hk; simp at hk
    · rw [if_neg hc] at hk
      rcases List.mem_cons.mp hk with rfl | hmem
      · have ht := table_type_le w
        have hb : 15 - ((if count > 16 then 16 else count) - 1) ≤ 15 := by omega
        omega
      · exact ih _ _ k hmem

lemma write_out_keys {src : List Nat} {raw w : Nat} {pk : List Nat × List Nat}
    (h : write_out src raw w = some pk) : ∀ k ∈ pk.2, k / 16 ≤ 14 := by
  unfold write_out at h
  by_cases h32 : 32 < w
  · rw [if_pos h32] at h; simp at h
  · rw [if_neg h32] at h
    by_cases hz : (table w).integers = 0
    · rw [if_pos hz] at h; simp at h
    · rw [if_neg hz] at h
      simp only [Option.some.injEq] at h
      subst h
      intro k hk
      exact writeOutBatches_keys src raw w _ _ _ k hk

lemma runsLoop_keys (source L : List Nat) :
    ∀ fuel idx bits run pk, runsLoop source L fuel idx bits run = some pk →
      ∀ k ∈ pk.2, k / 16 ≤ 14 := by
  intro fuel
  induction fuel with
  | zero =>
    intro idx bits run pk h k hk
    rw [runsLoop_zero] at h
    exact write_out_keys h k hk
  | succ fuel ih =>
    intro idx bits run pk h k hk
    rw [runsLoop_succ] at h
    by_cases hb : L.getD idx 0 = bits
    · rw [if_pos hb] at h
      exact ih _ _ _ _ h k hk
    · rw [if_neg hb] at h
      cases hw : write_out ((source.drop (idx - run)).take run) run bits with
      | none => rw [hw] at h; simp at h
      | some pk1 =>
        rw [hw] at h
        cases hr : runsLoop source L fuel (idx + 1) (L.getD idx 0) 1 with
        | none => rw [hr] at h; simp at h
        | some rest =>
          rw [hr] at h
          simp only [Option.some.injEq] at h
          subst h
          rcases List.mem_append.mp hk with h1 | h2
          · exact write_out_keys hw k h1
          · exact ih _ _ _ _ hr k h2

/-- C10: every selector byte emitted by the encoder has its high nibble
(type field) in 0..14 — equivalently it is below 0xF0 — so the decoder's
reserved-selector branch is unreachable on encoder output. -/
theorem encoder_selector_high_nibble (S : List Nat) (pk : List Nat × List Nat)
    (h : encodeParts S = some pk) :
    ∀ k ∈ pk.2, k / 16 ≤ 14 ∧ k < 0xF0 := by
  unfold encodeParts at h
  cases hw : walk (smoothQuads (S.map bits_needed_for ++ List.replicate 512 0)
      S.length) S.length with
  | none => rw [hw] at h; simp at h
  | some L2 =>
    rw [hw] at h
    intro k hk
    have := runsLoop_keys S L2 _ _ _ _ _ h k hk
    exact ⟨this, by omega⟩

/-- Witness for `encoder_selector_high_nibble`: the selector 0xEF of the
stream of `[2^21]`. -/
theorem encoder_selector_high_nibble_witness :
    (239 : Nat) / 16 ≤ 14 ∧ (239 : Nat) < 0xF0 :=
  encoder_selector_high_nibble [2097152] ([0, 0, 32, 0], [239])
    (by decide) 239 (by decide)

/-! ### C4: the promotion walk produces a legal block tiling -/

lemma scanExceeds_false {L : List Nat} {i w n : Nat}
    (h : scanExceeds L i w n = false) :
    ∀ k, k < n / 4 → L.getD (i + 4 * k) 0 ≤ w := by
  intro k hk
  simp only [scanExceeds, List.any_eq_false, List.mem_range, decide_eq_true_eq] at h
  have := h k hk
  omega

lemma stepOf_filled_spec {L : List Nat} {i : Nat} {L' : List Nat} {b : Nat}
    (h : stepOf L i = some (.filled L' b)) :
    widthOk (L.getD i 0) = true ∧
    scanExceeds L i (L.getD i 0) (table (L.getD i 0)).integers = false ∧
    L' = setRange L i (table (L.getD i 0)).integers (L.getD i 0) ∧
    b = (table (L.getD i 0)).integers := by
  unfold stepOf at h
  by_cases hok : widthOk (L.getD i 0) = true
  · rw [if_pos hok] at h
    by_cases hscan : scanExceeds L i (L.getD i 0) (table (L.getD i 0)).integers = true
    · rw [if_pos hscan] at h; simp at h
    · rw [if_neg hscan] at h
      simp only [Option.some.injEq, Step.filled.injEq] at h
      exact ⟨hok, by simpa using hscan, h.1.symm, h.2.symm⟩
  · rw [if_neg hok] at h; simp at h

lemma stepOf_promoted_spec {L : List Nat} {i : Nat} {L' : List Nat}
    (h : stepOf L i = some (.promoted L')) :
    widthOk (L.getD i 0) = true ∧
    scanExceeds L i (L.getD i 0) (table (L.getD i 0)).integers = true ∧
    L' = setQuad L i (nextWidth (L.getD i 0)) := by
  unfold stepOf at h
  by_cases hok : widthOk (L.getD i 0) = true
  · rw [if_pos hok] at h
    by_cases hscan : scanExceeds L i (L.getD i 0) (table (L.getD i 0)).integers = true
    · rw [if_pos hscan] at h
      simp only [Option.some.injEq, Step.promoted.injEq] at h
      exact ⟨hok, hscan, h.symm⟩
    · rw [if_neg hscan] at h; simp at h
  · rw [if_neg hok] at h; simp at h

lemma table_facts {w : Nat} (hw : w ∈ legalWidths) :
    0 < (table w).integers ∧ (table w).integers ≤ 256 ∧ 4 ∣ (table w).integers := by
  rcases legalWidths_cases hw with h|h|h|h|h|h|h|h|h|h|h|h|h|h|h <;> subst h <;> decide

lemma nextWidth_ge {w : Nat} (hw : w ∈ legalWidths) : w ≤ nextWidth w := by
  rcases legalWidths_cases hw with h|h|h|h|h|h|h|h|h|h|h|h|h|h|h <;> subst h <;> decide

lemma smoothLoop_spec (fuel : Nat) : ∀ (L : List Nat) (i : Nat), 4 ∣ i →
    i + 4 * fuel + 4 ≤ L.length →
    (smoothLoop L i fuel).length = L.length ∧
    (∀ j, j < i → (smoothLoop L i fuel).getD j 0 = L.getD j 0) ∧
    (∀ j, i + 4 * fuel ≤ j → (smoothLoop L i fuel).getD j 0 = L.getD j 0) ∧
    (∀ j, i ≤ j → j < i + 4 * fuel →
      (smoothLoop L i fuel).getD j 0 =
        maximum4 (L.getD (4 * (j / 4)) 0) (L.getD (4 * (j / 4) + 1) 0)
          (L.getD (4 * (j / 4) + 2) 0) (L.getD (4 * (j / 4) + 3) 0)) := by
  induction fuel with
  | zero =>
    intro L i _ _
    exact ⟨rfl, fun j _ => rfl, fun j _ => rfl, fun j h1 h2 => by omega⟩
  | succ fuel ih =>
    intro L i hi hlen
    have hlen4 : (setQuad L i (maximum4 (L.getD i 0) (L.getD (i + 1) 0)
        (L.getD (i + 2) 0) (L.getD (i + 3) 0))).length = L.length :=
      length_setRange ..
    obtain ⟨ih1, ih2, ih3, ih4⟩ :=
      ih (setQuad L i (maximum4 (L.getD i 0) (L.getD (i + 1) 0)
        (L.getD (i + 2) 0) (L.getD (i + 3) 0))) (i + 4) (by omega) (by omega)
    have hout : ∀ j, j < i ∨ i + 4 ≤ j →
        (setQuad L i (maximum4 (L.getD i 0) (L.getD (i + 1) 0)
          (L.getD (i + 2) 0) (L.getD (i + 3) 0))).getD j 0 = L.getD j 0 :=
      fun j hj => getD_setRange_outside L i 4 _ j hj
    refine ⟨by rw [smoothLoop, ih1, hlen4], ?_, ?_, ?_⟩
    · intro j hj
      rw [smoothLoop, ih2 j (by omega), hout j (Or.inl hj)]
    · intro j hj
      rw [smoothLoop, ih3 j (by omega), hout j (Or.inr (by omega))]
    · intro j hj1 hj2
      rw [smoothLoop]
      by_cases hq : j < i + 4
      · have hins : (setQuad L i (maximum4 (L.getD i 0) (L.getD (i + 1) 0)
            (L.getD (i + 2) 0) (L.getD (i + 3) 0))).getD j 0 =
            maximum4 (L.getD i 0) (L.getD (i + 1) 0) (L.getD (i + 2) 0)
              (L.getD (i + 3) 0) :=
          getD_setRange_inside L i 4 _ j hj1 hq (by omega)
        rw [ih2 j hq, hins]
        have hlead : 4 * (j / 4) = i := by omega
        rw [hlead]
      · rw [ih4 j (by omega) (by omega)]
        have hlead : i + 4 ≤ 4 * (j / 4) := by omega
        rw [hout _ (Or.inr hlead), hout _ (Or.inr (by omega)),
          hout _ (Or.inr (by omega)), hout _ (Or.inr (by omega))]

lemma setRange_QU (L : List Nat) (i n v M : Nat) (hi : 4 ∣ i) (hn : 4 ∣ n)
    (hM : M ≤ L.length)
    (hQU : ∀ j, j < M → L.getD j 0 = L.getD (4 * (j / 4)) 0) :
    ∀ j, j < M →
      (setRange L i n v).getD j 0 = (setRange L i n v).getD (4 * (j / 4)) 0 := by
  intro j hj
  by_cases hin : i ≤ j ∧ j < i + n
  · have hl1 : i ≤ 4 * (j / 4) := by omega
    have hl2 : 4 * (j / 4) < i + n := by omega
    rw [getD_setRange_inside L i n v j hin.1 hin.2 (by omega),
      getD_setRange_inside L i n v _ hl1 hl2 (by omega)]
  · have houtj : j < i ∨ i + n ≤ j := by omega
    have houtl : 4 * (j / 4) < i ∨ i + n ≤ 4 * (j / 4) := by omega
    rw [getD_setRange_outside _ _ _ _ _ houtj, getD_setRange_outside _ _ _ _ _ houtl]
    exact hQU j hj

lemma tailAdjust_spec (L : List Nat) (i N : Nat) :
    tailAdjust L i N = L ∨
    ∃ n v m, (n = 8 ∨ n = 16) ∧ m ≤ n ∧
      tailAdjust L i N = setRange L i n v ∧
      maxRange L i m ≤ v ∧
      (∀ j, j < N → j < i + n → j < i + m) := by
  unfold tailAdjust
  by_cases h4 : N - i < 4
  · rw [if_pos h4]
    by_cases c1 : maxRange L i 8 ≤ 8
    · rw [if_pos c1]
      exact Or.inr ⟨8, 8, 8, Or.inl rfl, by omega, rfl, c1, fun j _ hj => hj⟩
    rw [if_neg c1]
    by_cases c2 : maxRange L i 8 ≤ 16
    · rw [if_pos c2]
      exact Or.inr ⟨8, 16, 8, Or.inl rfl, by omega, rfl, c2, fun j _ hj => hj⟩
    rw [if_neg c2]
    by_cases c3 : maxRange L i 8 ≤ 32
    · rw [if_pos c3]
      exact Or.inr ⟨8, 32, 8, Or.inl rfl, by omega, rfl, c3, fun j _ hj => hj⟩
    · rw [if_neg c3]
      exact Or.inl rfl
  rw [if_neg h4]
  by_cases h8 : N - i < 8
  · rw [if_pos h8]
    by_cases c1 : maxRange L i 8 ≤ 8
    · rw [if_pos c1]
      exact Or.inr ⟨8, 8, 8, Or.inl rfl, by omega, rfl, c1, fun j _ hj => hj⟩
    rw [if_neg c1]
    by_cases c2 : maxRange L i 8 ≤ 16
    · rw [if_pos c2]
      exact Or.inr ⟨16, 16, 8, Or.inr rfl, by omega, rfl, c2, fun j hjN _ => by omega⟩
    · rw [if_neg c2]
      exact Or.inl rfl
  rw [if_neg h8]
  by_cases h16 : N - i < 16
  · rw [if_pos h16]
    by_cases c1 : maxRange L i 16 ≤ 8
    · rw [if_pos c1]
      exact Or.inr ⟨16, 8, 16, Or.inr rfl, by omega, rfl, c1, fun j _ hj => hj⟩
    · rw [if_neg c1]
      exact Or.inl rfl
  · rw [if_neg h16]
    exact Or.inl rfl

lemma tailAdjust_pointwise (B : Nat → Nat) (L : List Nat) (i N : Nat)
    (hB : ∀ j, j < N → B j ≤ L.getD j 0) (hlenN : N ≤ L.length) :
    ∀ j, j < N → B j ≤ (tailAdjust L i N).getD j 0 := by
  rcases tailAdjust_spec L i N with heq | ⟨n, v, m, _, _, heq, hv, hcov⟩
  · rw [heq]; exact hB
  · intro j hj
    rw [heq]
    by_cases hin : i ≤ j ∧ j < i + n
    · have hjm : j < i + m := hcov j hj hin.2
      have hLj : L.getD j 0 ≤ maxRange L i m := by
        have := maxRange_ge L i m (j - i) (by omega)
        have hji : i + (j - i) = j := by omega
        rwa [hji] at this
      rw [getD_setRange_inside L i n v j hin.1 hin.2 (by omega)]
      have := hB j hj
      omega
    · rw [getD_setRange_outside _ _ _ _ _ (by omega)]
      exact hB j hj

lemma tailAdjust_QU (L : List Nat) (i N M : Nat) (hi : 4 ∣ i)
    (hM : M ≤ L.length)
    (hQU : ∀ j, j < M → L.getD j 0 = L.getD (4 * (j / 4)) 0) :
    ∀ j, j < M →
      (tailAdjust L i N).getD j 0 = (tailAdjust L i N).getD (4 * (j / 4)) 0 := by
  rcases tailAdjust_spec L i N with heq | ⟨n, v, m, hn, _, heq, _, _⟩
  · rw [heq]; exact hQU
  · rw [heq]
    exact setRange_QU L i n v M hi (by rcases hn with rfl | rfl <;> decide) hM hQU

lemma tailAdjust_length (L : List Nat) (i N : Nat) :
    (tailAdjust L i N).length = L.length := by
  rcases tailAdjust_spec L i N with heq | ⟨n, v, m, _, _, heq, _, _⟩
  · rw [heq]
  · rw [heq, length_setRange]

lemma tailAdjust_lt (L : List Nat) (i N : Nat) :
    ∀ j, j < i → (tailAdjust L i N).getD j 0 = L.getD j 0 := by
  intro j hj
  rcases tailAdjust_spec L i N with heq | ⟨n, v, m, _, _, heq, _, _⟩
  · rw [heq]
  · rw [heq, getD_setRange_outside _ _ _ _ _ (Or.inl hj)]

/-- Main invariant proof for the promotion walk: from an aligned cursor with
quad-uniform widths that dominate the classified base widths, a successful
walk yields a final buffer that is a legal block tiling from the cursor, and
leaves entries below the cursor untouched. -/
lemma walkF_plan (B : Nat → Nat) (N : Nat) :
    ∀ fuel (L : List Nat) (i : Nat) (Lf : List Nat),
      walkF N fuel L i = some Lf →
      4 ∣ i →
      (∀ j, j < N + 256 → L.getD j 0 = L.getD (4 * (j / 4)) 0) →
      (∀ j, j < N → B j ≤ L.getD j 0) →
      L.length = N + 512 →
      (∀ j, j < i → Lf.getD j 0 = L.getD j 0) ∧ PlanFrom B Lf N i := by
  intro fuel
  induction fuel with
  | zero =>
    intro L i Lf h
    rw [walkF_zero] at h
    simp at h
  | succ fuel ih =>
    intro L i Lf h hi hQU hB hlen
    rw [walkF_succ] at h
    by_cases hiN : i < N
    · rw [if_pos hiN] at h
      have hQU1 : ∀ j, j < N + 256 →
          (tailAdjust L i N).getD j 0 = (tailAdjust L i N).getD (4 * (j / 4)) 0 :=
        tailAdjust_QU L i N (N + 256) hi (by omega) hQU
      have hB1 : ∀ j, j < N → B j ≤ (tailAdjust L i N).getD j 0 :=
        tailAdjust_pointwise B L i N hB (by omega)
      have hlen1 : (tailAdjust L i N).length = N + 512 := by
        rw [tailAdjust_length, hlen]
      cases hs : stepOf (tailAdjust L i N) i with
      | none => rw [hs] at h; simp at h
      | some st =>
        rw [hs] at h
        cases st with
        | promoted L2 =>
          obtain ⟨hok, hscan, hL2⟩ := stepOf_promoted_spec hs
          have hwmem := widthOk_mem hok
          have hnext := nextWidth_ge hwmem
          have hlen2 : L2.length = N + 512 := by
            rw [hL2, setQuad, length_setRange, hlen1]
          have hQU2 : ∀ j, j < N + 256 → L2.getD j 0 = L2.getD (4 * (j / 4)) 0 := by
            rw [hL2, setQuad]
            exact setRange_QU _ i 4 _ (N + 256) hi (by decide) (by omega) hQU1
          have hB2 : ∀ j, j < N → B j ≤ L2.getD j 0 := by
            intro j hj
            rw [hL2, setQuad]
            by_cases hin : i ≤ j ∧ j < i + 4
            · rw [getD_setRange_inside _ i 4 _ j hin.1 hin.2 (by omega)]
              have hlead : 4 * (j / 4) = i := by omega
              have hq := hQU1 j (by omega)
              rw [hlead] at hq
              have := hB1 j hj
              omega
            · rw [getD_setRange_outside _ _ _ _ _ (by omega)]
              exact hB1 j hj
          obtain ⟨hagree, hplan⟩ := ih L2 i Lf h hi hQU2 hB2 hlen2
          refine ⟨?_, hplan⟩
          intro j hj
          rw [hagree j hj, hL2, setQuad,
            getD_setRange_outside _ _ _ _ _ (Or.inl hj), tailAdjust_lt L i N j hj]
        | filled L2 b =>
          obtain ⟨hok, hscan, hL2, hb⟩ := stepOf_filled_spec hs
          have hwmem := widthOk_mem hok
          obtain ⟨hn0, hn256, hn4⟩ := table_facts hwmem
          have hscF := scanExceeds_false hscan
          have hlen2 : L2.length = N + 512 := by
            rw [hL2, length_setRange, hlen1]
          have hQU2 : ∀ j, j < N + 256 → L2.getD j 0 = L2.getD (4 * (j / 4)) 0 := by
            rw [hL2]
            exact setRange_QU _ i _ _ (N + 256) hi hn4 (by omega) hQU1
          -- every entry of the committed block is bounded by the block width
          have hblk : ∀ j, i ≤ j → j < i + (table ((tailAdjust L i N).getD i 0)).integers →
              j < N → B j ≤ (tailAdjust L i N).getD i 0 := by
            intro j hj1 hj2 hjN
            have hlead : 4 * (j / 4) = i + 4 * ((j - i) / 4) := by omega
            have hkub : (j - i) / 4 < (table ((tailAdjust L i N).getD i 0)).integers / 4 := by
              omega
            have hsc := hscF ((j - i) / 4) hkub
            have hq := hQU1 j (by omega)
            rw [hlead] at hq
            have := hB1 j hjN
            omega
          have hB2 : ∀ j, j < N → B j ≤ L2.getD j 0 := by
            intro j hj
            rw [hL2]
            by_cases hin : i ≤ j ∧ j < i + (table ((tailAdjust L i N).getD i 0)).integers
            · rw [getD_setRange_inside _ _ _ _ j hin.1 hin.2 (by omega)]
              exact hblk j hin.1 hin.2 hj
            · rw [getD_setRange_outside _ _ _ _ _ (by omega)]
              exact hB1 j hj
          obtain ⟨hagree, hplan⟩ :=
            ih L2 (i + b) Lf h (by rw [hb]; omega) hQU2 hB2 hlen2
          have hagree' : ∀ j, j < i + b → Lf.getD j 0 = L2.getD j 0 := hagree
          refine ⟨?_, ?_⟩
          · intro j hj
            rw [hagree' j (by omega), hL2,
              getD_setRange_outside _ _ _ _ _ (Or.inl hj), tailAdjust_lt L i N j hj]
          · refine PlanFrom.block i ((tailAdjust L i N).getD i 0) hwmem hiN ?_ ?_ ?_
            · intro j hj1 hj2
              rw [hagree' j (by omega), hL2,
                getD_setRange_inside _ _ _ _ j hj1 hj2 (by omega)]
            · exact fun j hj1 hj2 hjN => hblk j hj1 hj2 hjN
            · rw [← hb]
              exact hplan
    · rw [if_neg hiN] at h
      simp only [Option.some.injEq] at h
      subst h
      exact ⟨fun j hj => rfl, PlanFrom.done i (by omega)⟩

lemma le_maximum4_1 (a b c d : Nat) : a ≤ maximum4 a b c d :=
  le_trans (le_maximum_left a b) (le_maximum_left (maximum a b) (maximum c d))

lemma le_maximum4_2 (a b c d : Nat) : b ≤ maximum4 a b c d :=
  le_trans (le_maximum_right a b) (le_maximum_left (maximum a b) (maximum c d))

lemma le_maximum4_3 (a b c d : Nat) : c ≤ maximum4 a b c d :=
  le_trans (le_maximum_left c d) (le_maximum_right (maximum a b) (maximum c d))

lemma le_maximum4_4 (a b c d : Nat) : d ≤ maximum4 a b c d :=
  le_trans (le_maximum_right c d) (le_maximum_right (maximum a b) (maximum c d))

lemma length_buffer_getD_lt (S : List Nat) (j : Nat) (h : j < S.length) :
    (S.map bits_needed_for ++ List.replicate 512 0).getD j 0 =
      bits_needed_for (S.getD j 0) := by
  have h' : j < (S.map bits_needed_for).length := by simpa using h
  rw [List.getD_append _ _ _ _ h', List.getD_eq_getElem _ _ h',
    List.getD_eq_getElem _ _ h]
  simp

lemma length_buffer_getD_ge (S : List Nat) (j : Nat) (h : S.length ≤ j) :
    (S.map bits_needed_for ++ List.replicate 512 0).getD j 0 = 0 := by
  rw [List.getD_eq_getElem?_getD, List.getElem?_append_right (by simpa using h),
    List.getElem?_replicate]
  split <;> rfl

lemma smoothQuads_init (S : List Nat) :
    (smoothQuads (S.map bits_needed_for ++ List.replicate 512 0) S.length).length =
      S.length + 512 ∧
    (∀ j, j < S.length + 256 →
      (smoothQuads (S.map bits_needed_for ++ List.replicate 512 0) S.length).getD j 0 =
        (smoothQuads (S.map bits_needed_for ++ List.replicate 512 0) S.length).getD
          (4 * (j / 4)) 0) ∧
    (∀ j, j < S.length →
      bits_needed_for (S.getD j 0) ≤
        (smoothQuads (S.map bits_needed_for ++ List.replicate 512 0) S.length).getD j 0) := by
  have hlen0 : (S.map bits_needed_for ++ List.replicate 512 0).length = S.length + 512 := by
    simp
  obtain ⟨h1, h2, h3, h4⟩ :=
    smoothLoop_spec ((S.length + 4 + 3) / 4) (S.map bits_needed_for ++ List.replicate 512 0)
      0 (by decide) (by omega)
  have hfuel : S.length + 4 ≤ 4 * ((S.length + 4 + 3) / 4) := by omega
  refine ⟨by rw [smoothQuads, h1, hlen0], ?_, ?_⟩
  · intro j hj
    by_cases hlt : j < 4 * ((S.length + 4 + 3) / 4)
    · have hlead_lt : 4 * (j / 4) < 4 * ((S.length + 4 + 3) / 4) := by omega
      rw [smoothQuads, h4 j (by omega) (by omega),
        h4 (4 * (j / 4)) (by omega) (by omega)]
      have : 4 * (4 * (j / 4) / 4) = 4 * (j / 4) := by omega
      rw [this]
    · have hlead_ge : 4 * ((S.length + 4 + 3) / 4) ≤ 4 * (j / 4) := by omega
      rw [smoothQuads, h3 j (by omega), h3 (4 * (j / 4)) (by omega),
        length_buffer_getD_ge S j (by omega),
        length_buffer_getD_ge S (4 * (j / 4)) (by omega)]
  · intro j hj
    rw [smoothQuads, h4 j (by omega) (by omega)]
    have hbase : (S.map bits_needed_for ++ List.replicate 512 0).getD j 0 =
        bits_needed_for (S.getD j 0) := length_buffer_getD_lt S j hj
    rw [← hbase]
    generalize hQ : 4 * (j / 4) = q
    have hcase : j = q ∨ j = q + 1 ∨ j = q + 2 ∨ j = q + 3 := by omega
    rcases hcase with hc | hc | hc | hc
    · rw [hc]; exact le_maximum4_1 ..
    · rw [hc]; exact le_maximum4_2 ..
    · rw [hc]; exact le_maximum4_3 ..
    · rw [hc]; exact le_maximum4_4 ..

/-- C4 (amended): after planning (quad smoothing, tail promotion, promotion
walk), the width buffer from index 0 is tiled into blocks: each block has a
width `w ∈ W`, spans exactly `n(w)` buffer entries all equal to `w`, blocks
are consecutive and cover all of `[0, N)` (the final block may overhang `N`
into the padding, so the run lengths restricted to `[0, N)` need not be
multiples of `n(w)`), and every source integer inside a block has classified
width at most the block's width. -/
theorem encode_block_plan (S Lf : List Nat)
    (h : walk (smoothQuads (S.map bits_needed_for ++ List.replicate 512 0) S.length)
      S.length = some Lf) :
    PlanFrom (fun j => bits_needed_for (S.getD j 0)) Lf S.length 0 := by
  obtain ⟨hlen, hQU, hB⟩ := smoothQuads_init S
  unfold walk at h
  exact (walkF_plan (fun j => bits_needed_for (S.getD j 0)) S.length _ _ 0 Lf h
    ⟨0, rfl⟩ hQU hB hlen).2

/-- Witness for `encode_block_plan` at `S = [2]` (one width-8 block of 16
entries, planned by the fewer-than-4-remaining tail promotion). -/
theorem encode_block_plan_witness :
    PlanFrom (fun j => bits_needed_for (([2] : List Nat).getD j 0))
      (List.replicate 16 8 ++ List.replicate 497 0) 1 0 :=
  encode_block_plan [2] (List.replicate 16 8 ++ List.replicate 497 0) (by decide)

/-- C4 counterexample: for the single source integer 0 the planner commits a
width-8 block of 16 entries, but only `L[0..1)` lies inside the source range,
so the (unique) run of `L[0..N)` has length 1, which is not a whole multiple
of `n(8) = 16`. -/
theorem block_plan_run_multiple_counterexample :
    (walk (smoothQuads ((([0] : List Nat).map bits_needed_for) ++
        List.replicate 512 0) 1) 1).map (fun L => L.getD 0 0) = some 8 ∧
      ¬ (table 8).integers ∣ 1 := by
  constructor
  · decide
  · decide

end QMX
